import Mathlib

/-!
# Verification of the file-name normalization core of `cargo-export`

This file embeds the two pure functions of `src/main.rs` — `split_file_name`
and `target_file_name` — as Lean functions over `List Char` (a Rust `&str` is
a UTF-8 encoded sequence of unicode scalar values; we model it by its
character sequence and account for byte lengths explicitly via `utf8Len`,
since the Rust code checks `hash.len() == 16` in *bytes*).

All byte-index slicing in the Rust code happens at the position of an ASCII
character (`-`, or the chars of the ASCII suffix `".exe"`); in UTF-8 every
occurrence of an ASCII byte is a whole character, so slicing at such a byte
index coincides with slicing the character sequence.  This is proved
explicitly (`asciiByte_is_char_boundary`) over a byte-level UTF-8 encoder.
-/

/-- Model of Rust `char::is_ascii_hexdigit`: `'0'..='9' | 'a'..='f' | 'A'..='F'`,
expressed on the character's scalar value (48–57, 97–102, 65–70). -/
def isAsciiHexDigit (c : Char) : Bool :=
  (48 ≤ c.toNat && c.toNat ≤ 57) || (97 ≤ c.toNat && c.toNat ≤ 102) ||
    (65 ≤ c.toNat && c.toNat ≤ 70)

/-- Number of bytes of the UTF-8 encoding of a character. -/
def charBytes (c : Char) : Nat :=
  if c.toNat < 0x80 then 1
  else if c.toNat < 0x800 then 2
  else if c.toNat < 0x10000 then 3
  else 4

/-- Byte length of the UTF-8 encoding of a string, Rust's `str::len`. -/
def utf8Len (s : List Char) : Nat := (s.map charBytes).sum

/-- UTF-8 encoding of a single character as a list of byte values.
Continuation/lead bytes are built with `+`, `/`, `%`; since the bit ranges
are disjoint this agrees with the usual `|||`/`>>>` formulation. -/
def utf8EncodeChar (c : Char) : List Nat :=
  if c.toNat < 0x80 then [c.toNat]
  else if c.toNat < 0x800 then [0xC0 + c.toNat / 64, 0x80 + c.toNat % 64]
  else if c.toNat < 0x10000 then
    [0xE0 + c.toNat / 4096, 0x80 + c.toNat / 64 % 64, 0x80 + c.toNat % 64]
  else
    [0xF0 + c.toNat / 262144, 0x80 + c.toNat / 4096 % 64,
     0x80 + c.toNat / 64 % 64, 0x80 + c.toNat % 64]

/-- UTF-8 encoding of a string as a byte sequence. -/
def utf8Encode (s : List Char) : List Nat := (s.map utf8EncodeChar).flatten

/-- Model of Rust `str::rfind(char)`: position (in characters; the Rust byte
index lands on the same cut because the needle here is ASCII) of the last
occurrence of `c` in `s`, if any. -/
def rfind (s : List Char) (c : Char) : Option Nat :=
  match s with
  | [] => none
  | x :: xs =>
    match rfind xs c with
    | some i => some (i + 1)
    | none => if x = c then some 0 else none

/-- Model of Rust `str::strip_suffix`: `some` of the input with `suf`
removed from its end when `suf` is a suffix, `none` otherwise. -/
def stripSuffix? (s suf : List Char) : Option (List Char) :=
  if suf <:+ s then some (s.take (s.length - suf.length)) else none

/-- The one recognized extension suffix, `EXE_EXTENSION = ".exe"`. -/
def exeExtension : List Char := ['.', 'e', 'x', 'e']

/-- `RUSTC_HASH_LENGTH = 16`. -/
def rustcHashLength : Nat := 16

/-- The hash-detection half of `split_file_name`, operating on the
(possibly `.exe`-stripped) remainder: find the last `-`; if it exists at a
positive index and the text after it is exactly 16 bytes of ASCII hex
digits, that text is the hash and the stem is the text before the `-`;
otherwise the whole remainder is the stem. -/
def splitHash (file_name : List Char) : List Char × Option (List Char) :=
  match rfind file_name '-' with
  | some idx =>
    if 0 < idx then
      let hash := file_name.drop (idx + 1)
      if utf8Len hash == rustcHashLength && hash.all isAsciiHexDigit then
        (file_name.take idx, some hash)
      else
        (file_name, none)
    else
      (file_name, none)
  | none => (file_name, none)

/-- Embedding of `split_file_name` (src/main.rs:181): strip a trailing
`".exe"` if present (recording extension `"exe"`), then split off a
trailing 16-hex-digit hash after the last `-` (see `splitHash`). -/
def split_file_name (input : List Char) :
    List Char × Option (List Char) × Option (List Char) :=
  match stripSuffix? input exeExtension with
  | some name => ((splitHash name).1, (splitHash name).2, some (exeExtension.drop 1))
  | none => ((splitHash input).1, (splitHash input).2, none)

/-- Embedding of `target_file_name` (src/main.rs:120): split the name, then
build the result from the stem, `-tag` when a tag is given, and
`.extension` when an extension was recognized.  The hash is discarded. -/
def target_file_name (file_name : List Char) (tag_name : Option (List Char)) :
    List Char :=
  (split_file_name file_name).1
    ++ (tag_name.elim [] (fun t => '-' :: t))
    ++ ((split_file_name file_name).2.2.elim [] (fun e => '.' :: e))

/-- The NameComposer contract, written from the spec's words (section 4.2):
start from `stem`; if `tag` is present, append `-` then the tag; if
`extension` is present, append `.` then the extension; no other
transformation, and the recognized hash is not an input at all.  Used to
state the refinement claim C5 against `target_file_name`. -/
def composeSpec (stem : List Char) (extension tag : Option (List Char)) : List Char :=
  stem ++ (tag.elim [] (fun t => '-' :: t)) ++ (extension.elim [] (fun e => '.' :: e))

/-- `-h` when an optional part is present, `""` otherwise; the separator
convention of cargo's artifact names, used to build proptest-style inputs. -/
def dashPart : Option (List Char) → List Char
  | some t => '-' :: t
  | none => []

/-- `.e` when an optional extension is present, `""` otherwise. -/
def dotPart : Option (List Char) → List Char
  | some e => '.' :: e
  | none => []

/-! ## Basic facts about the character classes involved -/

theorem isAsciiHexDigit_toNat {c : Char} (h : isAsciiHexDigit c = true) :
    (48 ≤ c.toNat ∧ c.toNat ≤ 57) ∨ (97 ≤ c.toNat ∧ c.toNat ≤ 102) ∨
      (65 ≤ c.toNat ∧ c.toNat ≤ 70) := by
  unfold isAsciiHexDigit at h
  simp only [Bool.or_eq_true, Bool.and_eq_true, decide_eq_true_eq] at h
  tauto

theorem isAsciiHexDigit_ne_dash {c : Char} (h : isAsciiHexDigit c = true) : c ≠ '-' := by
  intro hc; subst hc; simp [isAsciiHexDigit] at h

theorem isAsciiHexDigit_ne_dot {c : Char} (h : isAsciiHexDigit c = true) : c ≠ '.' := by
  intro hc; subst hc; simp [isAsciiHexDigit] at h

theorem charBytes_of_ascii {c : Char} (h : c.toNat < 128) : charBytes c = 1 := by
  unfold charBytes; rw [if_pos h]

theorem charBytes_pos (c : Char) : 1 ≤ charBytes c := by
  unfold charBytes; split_ifs <;> omega

theorem utf8Len_nil : utf8Len [] = 0 := rfl

theorem utf8Len_cons (c : Char) (l : List Char) :
    utf8Len (c :: l) = charBytes c + utf8Len l := by
  simp [utf8Len]

theorem utf8Len_append (l₁ l₂ : List Char) :
    utf8Len (l₁ ++ l₂) = utf8Len l₁ + utf8Len l₂ := by
  simp [utf8Len]

theorem length_le_utf8Len (l : List Char) : l.length ≤ utf8Len l := by
  induction l with
  | nil => simp [utf8Len]
  | cons c l ih =>
    rw [utf8Len_cons]
    have := charBytes_pos c
    simp only [List.length_cons]
    omega

theorem utf8Len_of_all_hex {l : List Char} (h : l.all isAsciiHexDigit = true) :
    utf8Len l = l.length := by
  induction l with
  | nil => rfl
  | cons c l ih =>
    rw [List.all_cons, Bool.and_eq_true] at h
    have hc : c.toNat < 128 := by
      rcases isAsciiHexDigit_toNat h.1 with h' | h' | h' <;> omega
    rw [utf8Len_cons, charBytes_of_ascii hc, ih h.2, List.length_cons]
    omega

theorem dash_not_mem_of_all_hex {l : List Char} (h : l.all isAsciiHexDigit = true) :
    '-' ∉ l := by
  intro hm
  rw [List.all_eq_true] at h
  exact isAsciiHexDigit_ne_dash (h _ hm) rfl

/-! ## Correctness of `rfind` -/

theorem rfind_cons (x : Char) (xs : List Char) (c : Char) :
    rfind (x :: xs) c =
      match rfind xs c with
      | some i => some (i + 1)
      | none => if x = c then some 0 else none := by
  conv_lhs => rw [rfind]

theorem rfind_eq_none_iff {s : List Char} {c : Char} :
    rfind s c = none ↔ c ∉ s := by
  induction s with
  | nil => simp [rfind]
  | cons x xs ih =>
    rw [rfind_cons]
    cases hx : rfind xs c with
    | some i =>
      have : c ∈ xs := by
        by_contra hni
        rw [ih.mpr hni] at hx
        exact absurd hx (by simp)
      simp [this]
    | none =>
      have hni : c ∉ xs := ih.mp hx
      by_cases hxc : x = c
      · simp [hxc]
      · simp only [if_neg hxc, List.mem_cons, true_iff]
        exact fun hor => hor.elim (fun hcx => hxc hcx.symm) hni

theorem rfind_append_cons {xs ys : List Char} {c : Char} (h : c ∉ ys) :
    rfind (xs ++ c :: ys) c = some xs.length := by
  induction xs with
  | nil =>
    rw [List.nil_append, rfind_cons, rfind_eq_none_iff.mpr h]
    simp
  | cons x xs ih =>
    rw [List.cons_append, rfind_cons, ih]
    rfl

theorem rfind_eq_some {s : List Char} {c : Char} {i : Nat} (h : rfind s c = some i) :
    ∃ pre suf, s = pre ++ c :: suf ∧ pre.length = i ∧ c ∉ suf := by
  induction s generalizing i with
  | nil => simp [rfind] at h
  | cons x xs ih =>
    rw [rfind_cons] at h
    cases hx : rfind xs c with
    | some j =>
      rw [hx] at h
      obtain ⟨pre, suf, hs, hl, hns⟩ := ih hx
      refine ⟨x :: pre, suf, by rw [hs, List.cons_append], ?_, hns⟩
      simp only [Option.some.injEq] at h
      simp [hl, ← h]
    | none =>
      rw [hx] at h
      by_cases hxc : x = c
      · rw [if_pos hxc] at h
        simp only [Option.some.injEq] at h
        exact ⟨[], xs, by rw [hxc]; rfl, by simp [← h], rfind_eq_none_iff.mp hx⟩
      · rw [if_neg hxc] at h
        exact absurd h (by simp)

/-! ## Facts about `stripSuffix?` -/

theorem stripSuffix?_append (xs suf : List Char) :
    stripSuffix? (xs ++ suf) suf = some xs := by
  unfold stripSuffix?
  rw [if_pos (List.suffix_append xs suf)]
  congr 1
  rw [List.length_append, Nat.add_sub_cancel]
  exact List.take_left' rfl

theorem stripSuffix?_eq_none {s suf : List Char} (h : ¬ suf <:+ s) :
    stripSuffix? s suf = none := by
  unfold stripSuffix?
  rw [if_neg h]

theorem stripSuffix?_eq_some {s suf t : List Char} (h : stripSuffix? s suf = some t) :
    s = t ++ suf := by
  unfold stripSuffix? at h
  by_cases hsuf : suf <:+ s
  · rw [if_pos hsuf] at h
    obtain ⟨u, rfl⟩ := hsuf
    simp only [Option.some.injEq] at h
    rw [← h, List.length_append, Nat.add_sub_cancel, List.take_left' rfl]
  · rw [if_neg hsuf] at h
    exact absurd h (by simp)

theorem not_exe_suffix_of_no_dot {s : List Char} (h : '.' ∉ s) :
    ¬ exeExtension <:+ s := by
  intro hsuf
  exact h (hsuf.subset (by decide))

theorem not_exe_suffix_of_getLast? {s : List Char} {c : Char}
    (hlast : s.getLast? = some c) (hc : c ≠ 'e') : ¬ exeExtension <:+ s := by
  intro hsuf
  obtain ⟨t, rfl⟩ := hsuf
  rw [List.getLast?_append] at hlast
  have he : (exeExtension.getLast?).or t.getLast? = some 'e' := rfl
  rw [he] at hlast
  exact hc (Option.some.inj hlast).symm

/-! ## Characterization of `splitHash` -/

theorem splitHash_of_rfind_none {s : List Char} (h : rfind s '-' = none) :
    splitHash s = (s, none) := by
  unfold splitHash
  rw [h]

theorem splitHash_of_rfind_some {s : List Char} {idx : Nat} (h : rfind s '-' = some idx) :
    splitHash s =
      if 0 < idx then
        if utf8Len (s.drop (idx + 1)) == rustcHashLength &&
            (s.drop (idx + 1)).all isAsciiHexDigit then
          (s.take idx, some (s.drop (idx + 1)))
        else (s, none)
      else (s, none) := by
  unfold splitHash
  rw [h]

theorem splitHash_no_dash {s : List Char} (h : '-' ∉ s) : splitHash s = (s, none) :=
  splitHash_of_rfind_none (rfind_eq_none_iff.mpr h)

theorem splitHash_dash_head {cand : List Char} (h : '-' ∉ cand) :
    splitHash ('-' :: cand) = ('-' :: cand, none) := by
  have hr : rfind ('-' :: cand) '-' = some 0 := by
    have h0 := @rfind_append_cons [] cand '-' h
    simpa using h0
  rw [splitHash_of_rfind_some hr]
  simp

theorem drop_append_cons_length {pre cand : List Char} {c : Char} :
    (pre ++ c :: cand).drop (pre.length + 1) = cand := by
  rw [show pre ++ c :: cand = (pre ++ [c]) ++ cand by simp]
  exact List.drop_left' (by simp)

theorem splitHash_accept {pre cand : List Char} (hpre : pre ≠ []) (hnd : '-' ∉ cand)
    (hlen : utf8Len cand = 16) (hhex : cand.all isAsciiHexDigit = true) :
    splitHash (pre ++ '-' :: cand) = (pre, some cand) := by
  rw [splitHash_of_rfind_some (rfind_append_cons hnd)]
  have hpos : 0 < pre.length := List.length_pos.mpr hpre
  rw [if_pos hpos, drop_append_cons_length, List.take_left pre]
  rw [if_pos (by simp [hlen, hhex, rustcHashLength])]

theorem splitHash_reject {pre cand : List Char} (hpre : pre ≠ []) (hnd : '-' ∉ cand)
    (hbad : ¬(utf8Len cand = 16 ∧ cand.all isAsciiHexDigit = true)) :
    splitHash (pre ++ '-' :: cand) = (pre ++ '-' :: cand, none) := by
  rw [splitHash_of_rfind_some (rfind_append_cons hnd)]
  have hpos : 0 < pre.length := List.length_pos.mpr hpre
  rw [if_pos hpos, drop_append_cons_length]
  rcases Decidable.not_and_iff_or_not_not.mp hbad with hb | hb
  · rw [if_neg (by simp [rustcHashLength, hb])]
  · rw [if_neg (by simp only [Bool.and_eq_true, beq_iff_eq]; exact fun hc => hb hc.2)]

/-- Reassembling the two parts of `splitHash` gives back the input. -/
theorem splitHash_join (s : List Char) :
    (splitHash s).1 ++ ((splitHash s).2.elim [] (fun h => '-' :: h)) = s := by
  cases hr : rfind s '-' with
  | none => rw [splitHash_of_rfind_none hr]; simp
  | some idx =>
    rw [splitHash_of_rfind_some hr]
    obtain ⟨pre, suf, hs, hl, hns⟩ := rfind_eq_some hr
    by_cases hpos : 0 < idx
    · rw [if_pos hpos]
      have hdrop : s.drop (idx + 1) = suf := by
        rw [hs, ← hl]; exact drop_append_cons_length
      have htake : s.take idx = pre := by rw [hs]; exact List.take_left' hl
      split_ifs with hc
      · show s.take idx ++ '-' :: s.drop (idx + 1) = s
        rw [htake, hdrop, hs]
      · simp
    · rw [if_neg hpos]
      simp

/-! ## Characterization of `split_file_name` and `target_file_name` -/

theorem split_file_name_of_no_exe {input : List Char} (h : ¬ exeExtension <:+ input) :
    split_file_name input = ((splitHash input).1, (splitHash input).2, none) := by
  unfold split_file_name
  rw [stripSuffix?_eq_none h]

theorem split_file_name_of_exe (core : List Char) :
    split_file_name (core ++ exeExtension) =
      ((splitHash core).1, (splitHash core).2, some ['e', 'x', 'e']) := by
  unfold split_file_name
  rw [stripSuffix?_append]
  rfl

theorem target_file_name_eq (s : List Char) (tag : Option (List Char)) :
    target_file_name s tag =
      (split_file_name s).1 ++ (tag.elim [] (fun t => '-' :: t))
        ++ ((split_file_name s).2.2.elim [] (fun e => '.' :: e)) := rfl

/-- Reassembling all three components of `split_file_name` with the literal
separators reproduces the input. -/
theorem split_join (raw : List Char) :
    (split_file_name raw).1
      ++ ((split_file_name raw).2.1.elim [] (fun h => '-' :: h))
      ++ ((split_file_name raw).2.2.elim [] (fun e => '.' :: e)) = raw := by
  by_cases hexe : exeExtension <:+ raw
  · obtain ⟨core, rfl⟩ := hexe
    rw [split_file_name_of_exe]
    have hj := splitHash_join core
    show (splitHash core).1 ++ ((splitHash core).2.elim [] (fun h => '-' :: h))
        ++ exeExtension = core ++ exeExtension
    rw [hj]
  · rw [split_file_name_of_no_exe hexe]
    have hj := splitHash_join raw
    show (splitHash raw).1 ++ ((splitHash raw).2.elim [] (fun h => '-' :: h)) ++ [] = raw
    rw [List.append_nil]
    exact hj

theorem getLast?_append_of_ne_nil {l₁ l₂ : List Char} (h : l₂ ≠ []) :
    (l₁ ++ l₂).getLast? = l₂.getLast? := by
  rw [List.getLast?_append]
  cases hl : l₂.getLast? with
  | none => exact absurd (List.getLast?_eq_none_iff.mp hl) h
  | some a => rfl

/-! ## The claims -/

/-- C2: after the optional `.exe` stripping, the candidate after the last
`-` is accepted as a hash iff the `-` is not at index 0, the candidate is
exactly 16 bytes long and all its characters are ASCII hex digits; on
acceptance the stem is the text strictly before the `-` and the hash is the
candidate, on rejection (no `-`, `-` at index 0, or a failing candidate)
the whole remainder is the stem and the hash is `none`. -/
theorem claim_C2 :
    (∀ s : List Char, '-' ∉ s → splitHash s = (s, none))
  ∧ (∀ cand : List Char, '-' ∉ cand → splitHash ('-' :: cand) = ('-' :: cand, none))
  ∧ (∀ pre cand : List Char, pre ≠ [] → '-' ∉ cand →
      utf8Len cand = 16 → cand.all isAsciiHexDigit = true →
      splitHash (pre ++ '-' :: cand) = (pre, some cand))
  ∧ (∀ pre cand : List Char, pre ≠ [] → '-' ∉ cand →
      ¬(utf8Len cand = 16 ∧ cand.all isAsciiHexDigit = true) →
      splitHash (pre ++ '-' :: cand) = (pre ++ '-' :: cand, none)) :=
  ⟨fun _ h => splitHash_no_dash h,
   fun _ h => splitHash_dash_head h,
   fun _ _ h1 h2 h3 h4 => splitHash_accept h1 h2 h3 h4,
   fun _ _ h1 h2 h3 => splitHash_reject h1 h2 h3⟩

/-- Witness for C2: the accept case at `"app-0123456789abcdef"`. -/
theorem claim_C2_witness :
    splitHash ("app-0123456789abcdef".toList)
      = ("app".toList, some ("0123456789abcdef".toList)) := by
  have h := claim_C2.2.2.1 "app".toList "0123456789abcdef".toList
    (by decide) (by decide) (by decide) (by decide)
  exact h

/-- C3: the eight concrete (input, tag) cases of the spec produce exactly
the listed outputs. -/
theorem claim_C3 :
    target_file_name ("app-ebb8dd5b587f73a1".toList) none = "app".toList
  ∧ target_file_name ("app-ebb8dd5b587f73a1".toList) (some "v1".toList) = "app-v1".toList
  ∧ target_file_name ("app-ebb8dd5b5".toList) none = "app-ebb8dd5b5".toList
  ∧ target_file_name ("app-".toList) none = "app-".toList
  ∧ target_file_name ("".toList) (some "v1".toList) = "-v1".toList
  ∧ target_file_name ("-ebb8dd5b587f73a1".toList) none = "-ebb8dd5b587f73a1".toList
  ∧ target_file_name ("app-ebb8dd5b587f73a1.exe".toList) (some "v1".toList) = "app-v1.exe".toList
  ∧ target_file_name (".exe".toList) (some "v1".toList) = "-v1.exe".toList := by
  refine ⟨?_, ?_, ?_, ?_, ?_, ?_, ?_, ?_⟩ <;> decide

/-- C4: only the literal suffix `".exe"` is recognized as an extension, and
it is stripped before hash detection, so a 16-hex-digit hash segment is
recognized even immediately before `".exe"`. -/
theorem claim_C4 :
    (∀ input : List Char, ¬ exeExtension <:+ input → (split_file_name input).2.2 = none)
  ∧ (∀ input e : List Char, (split_file_name input).2.2 = some e →
      e = ['e', 'x', 'e'] ∧ exeExtension <:+ input)
  ∧ (∀ s h : List Char, s ≠ [] → h.length = 16 → h.all isAsciiHexDigit = true →
      split_file_name ((s ++ '-' :: h) ++ exeExtension) = (s, some h, some ['e', 'x', 'e'])) := by
  refine ⟨?_, ?_, ?_⟩
  · intro input h
    rw [split_file_name_of_no_exe h]
  · intro input e h
    by_cases hexe : exeExtension <:+ input
    · obtain ⟨core, rfl⟩ := hexe
      rw [split_file_name_of_exe] at h
      exact ⟨(Option.some.inj h).symm, List.suffix_append core exeExtension⟩
    · rw [split_file_name_of_no_exe hexe] at h
      exact absurd h (by simp)
  · intro s h hs hlen hhex
    rw [split_file_name_of_exe (s ++ '-' :: h)]
    rw [splitHash_accept hs (dash_not_mem_of_all_hex hhex)
      (by rw [utf8Len_of_all_hex hhex, hlen]) hhex]

/-- Witness for C4: the hash-before-`.exe` case at `"app-0123456789abcdef.exe"`. -/
theorem claim_C4_witness :
    split_file_name (("app".toList ++ '-' :: "0123456789abcdef".toList) ++ exeExtension)
      = ("app".toList, some ("0123456789abcdef".toList), some ['e', 'x', 'e']) :=
  claim_C4.2.2 "app".toList "0123456789abcdef".toList (by decide) (by decide) (by decide)

/-- C5: `target_file_name` refines the spec's NameComposer contract
(`composeSpec`): the output is the stem, then `-tag` iff a tag is present,
then `.extension` iff an extension is present, and the recognized hash is
not an input of the composition at all; when no hash is recognized the
original name (minus a stripped extension) is preserved as the stem. -/
theorem claim_C5 (input : List Char) (tag : Option (List Char)) :
    target_file_name input tag
        = composeSpec (split_file_name input).1 (split_file_name input).2.2 tag
  ∧ ((split_file_name input).2.1 = none →
      (split_file_name input).1
        ++ ((split_file_name input).2.2.elim [] (fun e => '.' :: e)) = input) := by
  constructor
  · rfl
  · intro hnone
    have hj := split_join input
    rw [hnone] at hj
    simpa using hj

/-- Witness for C5 at `"app-xyz"` (no recognized hash) with tag `"v1"`. -/
theorem claim_C5_witness :
    target_file_name ("app-xyz".toList) (some "v1".toList)
        = composeSpec (split_file_name ("app-xyz".toList)).1
            (split_file_name ("app-xyz".toList)).2.2 (some "v1".toList)
  ∧ (split_file_name ("app-xyz".toList)).1
      ++ ((split_file_name ("app-xyz".toList)).2.2.elim [] (fun e => '.' :: e))
      = "app-xyz".toList :=
  ⟨(claim_C5 ("app-xyz".toList) (some "v1".toList)).1,
   (claim_C5 ("app-xyz".toList) (some "v1".toList)).2 (by decide)⟩

/-- C6: concatenating stem, `-hash` (when present) and `.extension` (when
present) reproduces the input exactly, for every input. -/
theorem claim_C6 (raw : List Char) :
    (split_file_name raw).1
      ++ ((split_file_name raw).2.1.elim [] (fun h => '-' :: h))
      ++ ((split_file_name raw).2.2.elim [] (fun e => '.' :: e)) = raw :=
  split_join raw

/-- C7: when the input has no trailing 16-hex-digit hash segment and no
`.exe` suffix, composing the split with no tag is the identity. -/
theorem claim_C7 (raw : List Char)
    (hexe : ¬ exeExtension <:+ raw)
    (hhash : ∀ pre cand : List Char, raw = pre ++ '-' :: cand → '-' ∉ cand → pre ≠ [] →
        ¬(utf8Len cand = 16 ∧ cand.all isAsciiHexDigit = true)) :
    target_file_name raw none = raw := by
  rw [target_file_name_eq, split_file_name_of_no_exe hexe]
  show (splitHash raw).1 ++ [] ++ [] = raw
  rw [List.append_nil, List.append_nil]
  cases hr : rfind raw '-' with
  | none => rw [splitHash_of_rfind_none hr]
  | some idx =>
    obtain ⟨pre, suf, hs, hl, hns⟩ := rfind_eq_some hr
    by_cases hpos : 0 < idx
    · have hpre : pre ≠ [] := by
        intro h0
        rw [h0] at hl
        simp at hl
        omega
      rw [hs, splitHash_reject hpre hns (hhash pre suf hs hns hpre)]
    · rw [splitHash_of_rfind_some hr, if_neg hpos]

/-- Witness for C7 at `"app"`. -/
theorem claim_C7_witness : target_file_name ("app".toList) none = "app".toList := by
  refine claim_C7 _ (by decide) ?_
  intro pre cand heq _ _
  exfalso
  have hm : '-' ∈ pre ++ '-' :: cand := List.mem_append_right pre (List.mem_cons_self '-' cand)
  rw [← heq] at hm
  exact absurd hm (by decide)

/-- C9: a 16-hex-digit hash segment immediately followed by a non-`.exe`
extension (`.dylib`, `.so`, `.dll`) is never recognized, and the whole
input is returned unchanged. -/
theorem claim_C9 (base h e : List Char) (hlen : h.length = 16)
    (hhex : h.all isAsciiHexDigit = true)
    (he : e = "dylib".toList ∨ e = "so".toList ∨ e = "dll".toList) :
    target_file_name (base ++ '-' :: (h ++ '.' :: e)) none
      = base ++ '-' :: (h ++ '.' :: e) := by
  have hne : e ≠ [] := by rcases he with rfl | rfl | rfl <;> decide
  have hlast : (base ++ '-' :: (h ++ '.' :: e)).getLast? = e.getLast? := by
    rw [getLast?_append_of_ne_nil (by simp)]
    rw [show '-' :: (h ++ '.' :: e) = ('-' :: h ++ ['.']) ++ e by simp]
    exact getLast?_append_of_ne_nil hne
  have hexe : ¬ exeExtension <:+ (base ++ '-' :: (h ++ '.' :: e)) := by
    rcases he with rfl | rfl | rfl
    · exact not_exe_suffix_of_getLast? (c := 'b') (by rw [hlast]; decide) (by decide)
    · exact not_exe_suffix_of_getLast? (c := 'o') (by rw [hlast]; decide) (by decide)
    · exact not_exe_suffix_of_getLast? (c := 'l') (by rw [hlast]; decide) (by decide)
  rw [target_file_name_eq, split_file_name_of_no_exe hexe]
  show (splitHash (base ++ '-' :: (h ++ '.' :: e))).1 ++ [] ++ []
      = base ++ '-' :: (h ++ '.' :: e)
  rw [List.append_nil, List.append_nil]
  have hnd : '-' ∉ h ++ '.' :: e := by
    intro hm
    rcases List.mem_append.mp hm with hm | hm
    · exact dash_not_mem_of_all_hex hhex hm
    · rcases List.mem_cons.mp hm with hm | hm
      · exact absurd hm (by decide)
      · rcases he with rfl | rfl | rfl <;> exact absurd hm (by decide)
  by_cases hbase : base = []
  · subst hbase
    rw [List.nil_append, splitHash_dash_head hnd]
  · have hbig : ¬(utf8Len (h ++ '.' :: e) = 16 ∧ (h ++ '.' :: e).all isAsciiHexDigit = true) := by
      rintro ⟨hl16, -⟩
      have hge := length_le_utf8Len (h ++ '.' :: e)
      rw [hl16, List.length_append, hlen, List.length_cons] at hge
      omega
    rw [splitHash_reject hbase hnd hbig]

/-- Witness for C9 at `"app-0123456789abcdef.so"`. -/
theorem claim_C9_witness :
    target_file_name ("app".toList ++ '-' :: ("0123456789abcdef".toList ++ '.' :: "so".toList)) none
      = "app".toList ++ '-' :: ("0123456789abcdef".toList ++ '.' :: "so".toList) :=
  claim_C9 "app".toList "0123456789abcdef".toList "so".toList
    (by decide) (by decide) (Or.inr (Or.inl rfl))

/-- C10: adding a tag never changes how stem, hash and extension are
determined: with a `.exe` suffix the tag is inserted right before the
trailing `.exe` of the untagged output, otherwise `-tag` is appended to the
untagged output. -/
theorem claim_C10 (s t : List Char) :
    (exeExtension <:+ s → ∃ r, target_file_name s none = r ++ exeExtension ∧
        target_file_name s (some t) = (r ++ '-' :: t) ++ exeExtension)
  ∧ (¬ exeExtension <:+ s →
      target_file_name s (some t) = target_file_name s none ++ '-' :: t) := by
  constructor
  · rintro ⟨core, rfl⟩
    refine ⟨(splitHash core).1, ?_, ?_⟩
    · rw [target_file_name_eq, split_file_name_of_exe]
      show (splitHash core).1 ++ [] ++ '.' :: ['e', 'x', 'e']
          = (splitHash core).1 ++ exeExtension
      simp [exeExtension]
    · rw [target_file_name_eq, split_file_name_of_exe]
      show (splitHash core).1 ++ '-' :: t ++ '.' :: ['e', 'x', 'e']
          = ((splitHash core).1 ++ '-' :: t) ++ exeExtension
      simp [exeExtension]
  · intro hexe
    rw [target_file_name_eq, target_file_name_eq, split_file_name_of_no_exe hexe]
    show (splitHash s).1 ++ '-' :: t ++ [] = (splitHash s).1 ++ [] ++ [] ++ '-' :: t
    simp

/-- Witness for C10: both branches, at `"a.exe"` and `"b"` with tag `"v"`. -/
theorem claim_C10_witness :
    (∃ r, target_file_name ("a.exe".toList) none = r ++ exeExtension ∧
        target_file_name ("a.exe".toList) (some "v".toList) = (r ++ '-' :: "v".toList) ++ exeExtension)
  ∧ target_file_name ("b".toList) (some "v".toList)
      = target_file_name ("b".toList) none ++ '-' :: "v".toList :=
  ⟨(claim_C10 ("a.exe".toList) ("v".toList)).1 (by decide),
   (claim_C10 ("b".toList) ("v".toList)).2 (by decide)⟩

/-! ## Substring machinery for C1 -/

theorem prefix_of_prefix_append_cons {p a b : List Char} {c : Char} (hc : c ∉ p)
    (h : p <+: a ++ c :: b) : p <+: a := by
  induction a generalizing p with
  | nil =>
    cases p with
    | nil => exact List.nil_prefix
    | cons q p' =>
      rw [List.nil_append, List.cons_prefix_cons] at h
      exact absurd (List.mem_cons.mpr (Or.inl h.1.symm)) hc
  | cons x a' ih =>
    cases p with
    | nil => exact List.nil_prefix
    | cons q p' =>
      rw [List.cons_append, List.cons_prefix_cons] at h
      rw [List.cons_prefix_cons]
      exact ⟨h.1, ih (fun hm => hc (List.mem_cons_of_mem q hm)) h.2⟩

/-- A pattern that avoids the separator `c` and occurs in `a ++ c :: b`
occurs entirely inside `a` or entirely inside `b`. -/
theorem infix_append_cons_split {p a b : List Char} {c : Char} (hc : c ∉ p)
    (h : p <:+: a ++ c :: b) : p <:+: a ∨ p <:+: b := by
  induction a with
  | nil =>
    rw [List.nil_append] at h
    rcases List.infix_cons_iff.mp h with hp | hi
    · cases p with
      | nil => exact Or.inl List.nil_infix
      | cons q p' =>
        rw [List.cons_prefix_cons] at hp
        exact absurd (List.mem_cons.mpr (Or.inl hp.1.symm)) hc
    · exact Or.inr hi
  | cons x a' ih =>
    rw [List.cons_append] at h
    rcases List.infix_cons_iff.mp h with hp | hi
    · have hpa : p <+: x :: a' :=
        prefix_of_prefix_append_cons hc (show p <+: (x :: a') ++ c :: b from hp)
      obtain ⟨u, hu⟩ := hpa
      exact Or.inl ⟨[], u, by rw [List.nil_append, hu]⟩
    · rcases ih hi with h1 | h2
      · exact Or.inl (List.infix_cons h1)
      · exact Or.inr h2

/-- Counterexample to C1 as stated: with name `"a"` (matching `[a-z]+`), no
tag, extension `"dylib"` (drawn from the claim's extension set) and the
16-hex-digit hash `"0123456789abcdef"`, the composed output not only
contains the hash text — it is the whole unchanged input, because only
`".exe"` is ever stripped. -/
theorem claim_C1_counterexample :
    target_file_name ("a".toList ++ '-' :: ("0123456789abcdef".toList ++ '.' :: "dylib".toList)) none
        = "a-0123456789abcdef.dylib".toList
  ∧ ("0123456789abcdef".toList) <:+:
      target_file_name ("a".toList ++ '-' :: ("0123456789abcdef".toList ++ '.' :: "dylib".toList)) none := by
  refine ⟨by decide, ?_⟩
  decide

/-- C1 (amended): the property holds once the extension set is restricted
to `{"", "exe"}` — for `dylib`/`so`/`dll` the hash is not stripped (see the
counterexample) and a tag lands after the extension — and once the hash
text is additionally required not to occur inside the name or the tag
(a hash whose text already occurs there survives verbatim in the output). -/
theorem claim_C1 (name : List Char) (tag hash ext : Option (List Char))
    (hname : name ≠ [])
    (hchars : name.all (fun c => 97 ≤ c.toNat && c.toNat ≤ 122) = true)
    (hext : ext = none ∨ ext = some ['e', 'x', 'e'])
    (hhash : ∀ h, hash = some h → h.length = 16 ∧ h.all isAsciiHexDigit = true ∧
        ¬ h <:+: name ∧ ∀ t, tag = some t → ¬ h <:+: t) :
    name <+: target_file_name (name ++ dashPart hash ++ dotPart ext) tag
  ∧ (∀ t, tag = some t → t <:+: target_file_name (name ++ dashPart hash ++ dotPart ext) tag)
  ∧ (∀ e, ext = some e → ('.' :: e) <:+ target_file_name (name ++ dashPart hash ++ dotPart ext) tag)
  ∧ (∀ h, hash = some h → ¬ h <:+: target_file_name (name ++ dashPart hash ++ dotPart ext) tag) := by
  have hmemname : ∀ c ∈ name, 97 ≤ c.toNat ∧ c.toNat ≤ 122 := by
    intro c hc
    have := List.all_eq_true.mp hchars c hc
    simpa using this
  have hdashname : '-' ∉ name := by
    intro hm
    have := hmemname _ hm
    rw [show ('-' : Char).toNat = 45 from rfl] at this
    omega
  have hdotname : '.' ∉ name := by
    intro hm
    have := hmemname _ hm
    rw [show ('.' : Char).toNat = 46 from rfl] at this
    omega
  have hsplitHash : splitHash (name ++ dashPart hash) = (name, hash) := by
    cases hash with
    | none =>
      show splitHash (name ++ []) = (name, none)
      rw [List.append_nil]
      exact splitHash_no_dash hdashname
    | some h =>
      obtain ⟨hlen, hhex, -, -⟩ := hhash h rfl
      exact splitHash_accept hname (dash_not_mem_of_all_hex hhex)
        (by rw [utf8Len_of_all_hex hhex, hlen]) hhex
  have hdotmid : '.' ∉ name ++ dashPart hash := by
    intro hm
    rcases List.mem_append.mp hm with hm | hm
    · exact hdotname hm
    · cases hash with
      | none => exact absurd hm (by simp [dashPart])
      | some h =>
        obtain ⟨-, hhex, -, -⟩ := hhash h rfl
        rcases List.mem_cons.mp hm with hm | hm
        · exact absurd hm (by decide)
        · exact isAsciiHexDigit_ne_dot (List.all_eq_true.mp hhex _ hm) rfl
  have hsplit : split_file_name (name ++ dashPart hash ++ dotPart ext) = (name, hash, ext) := by
    rcases hext with rfl | rfl
    · show split_file_name (name ++ dashPart hash ++ []) = _
      rw [List.append_nil, split_file_name_of_no_exe (not_exe_suffix_of_no_dot hdotmid)]
      simp [hsplitHash]
    · show split_file_name ((name ++ dashPart hash) ++ exeExtension) = _
      rw [split_file_name_of_exe]
      simp [hsplitHash]
  have hres : target_file_name (name ++ dashPart hash ++ dotPart ext) tag
      = name ++ dashPart tag ++ dotPart ext := by
    rw [target_file_name_eq, hsplit]
    cases tag <;> cases ext <;> rfl
  refine ⟨?_, ?_, ?_, ?_⟩
  · rw [hres, List.append_assoc]
    exact List.prefix_append name _
  · intro t ht
    rw [hres, ht]
    exact ⟨name ++ ['-'], dotPart ext, by simp [dashPart]⟩
  · intro e he
    rw [hres, he]
    exact ⟨name ++ dashPart tag, by simp [dotPart]⟩
  · intro h hh hi
    obtain ⟨hlen, hhex, hnotname, hnottag⟩ := hhash h hh
    have hdashh : '-' ∉ h := dash_not_mem_of_all_hex hhex
    have hdoth : '.' ∉ h := fun hm =>
      isAsciiHexDigit_ne_dot (List.all_eq_true.mp hhex _ hm) rfl
    have hexe3 : ¬ h <:+: ['e', 'x', 'e'] := fun hin => by
      have := hin.length_le
      rw [hlen] at this
      exact absurd this (by decide)
    rw [hres] at hi
    cases tag with
    | none =>
      rcases hext with rfl | rfl
      · rw [show name ++ dashPart none ++ dotPart none = name by simp [dashPart, dotPart]] at hi
        exact hnotname hi
      · rw [show name ++ dashPart none ++ dotPart (some ['e', 'x', 'e'])
            = name ++ '.' :: ['e', 'x', 'e'] by simp [dashPart, dotPart]] at hi
        rcases infix_append_cons_split hdoth hi with h1 | h2
        · exact hnotname h1
        · exact hexe3 h2
    | some t =>
      rw [show name ++ dashPart (some t) ++ dotPart ext
          = name ++ '-' :: (t ++ dotPart ext) by simp [dashPart]] at hi
      rcases infix_append_cons_split hdashh hi with h1 | h2
      · exact hnotname h1
      · rcases hext with rfl | rfl
        · rw [show t ++ dotPart none = t by simp [dotPart]] at h2
          exact hnottag t rfl h2
        · rw [show t ++ dotPart (some ['e', 'x', 'e'])
              = t ++ '.' :: ['e', 'x', 'e'] by simp [dotPart]] at h2
          rcases infix_append_cons_split hdoth h2 with h3 | h4
          · exact hnottag t rfl h3
          · exact hexe3 h4

/-- Witness for C1: name `"app"`, tag `"v1"`, extension `"exe"`, hash
`"0123456789abcdef"`. -/
theorem claim_C1_witness :
    "app".toList <+:
      target_file_name ("app".toList ++ dashPart (some "0123456789abcdef".toList)
        ++ dotPart (some ['e', 'x', 'e'])) (some "v1".toList)
  ∧ "v1".toList <:+:
      target_file_name ("app".toList ++ dashPart (some "0123456789abcdef".toList)
        ++ dotPart (some ['e', 'x', 'e'])) (some "v1".toList)
  ∧ ('.' :: ['e', 'x', 'e']) <:+
      target_file_name ("app".toList ++ dashPart (some "0123456789abcdef".toList)
        ++ dotPart (some ['e', 'x', 'e'])) (some "v1".toList)
  ∧ ¬ "0123456789abcdef".toList <:+:
      target_file_name ("app".toList ++ dashPart (some "0123456789abcdef".toList)
        ++ dotPart (some ['e', 'x', 'e'])) (some "v1".toList) := by
  obtain ⟨h1, h2, h3, h4⟩ := claim_C1 "app".toList (some "v1".toList)
    (some "0123456789abcdef".toList) (some ['e', 'x', 'e'])
    (by decide) (by decide) (Or.inr rfl)
    (fun h hh => by
      cases hh
      exact ⟨by decide, by decide, by decide, fun t ht => by cases ht; decide⟩)
  exact ⟨h1, h2 _ rfl, h3 _ rfl, h4 _ rfl⟩

/-! ## UTF-8 byte-boundary safety (C8) -/

theorem utf8EncodeChar_length (c : Char) : (utf8EncodeChar c).length = charBytes c := by
  unfold utf8EncodeChar charBytes
  split_ifs <;> rfl

theorem utf8EncodeChar_ascii {c : Char} (h : c.toNat < 128) :
    utf8EncodeChar c = [c.toNat] := by
  unfold utf8EncodeChar
  rw [if_pos h]

theorem utf8EncodeChar_ge {c : Char} (h : ¬ c.toNat < 128) :
    ∀ b ∈ utf8EncodeChar c, 128 ≤ b := by
  intro b hb
  unfold utf8EncodeChar at hb
  split_ifs at hb with h1 h2
  · simp only [List.mem_cons, List.not_mem_nil, or_false] at hb
    rcases hb with rfl | rfl <;> omega
  · simp only [List.mem_cons, List.not_mem_nil, or_false] at hb
    rcases hb with rfl | rfl | rfl <;> omega
  · simp only [List.mem_cons, List.not_mem_nil, or_false] at hb
    rcases hb with rfl | rfl | rfl | rfl <;> omega

theorem utf8Encode_nil : utf8Encode [] = [] := rfl

theorem utf8Encode_cons (c : Char) (s : List Char) :
    utf8Encode (c :: s) = utf8EncodeChar c ++ utf8Encode s := by
  simp [utf8Encode]

/-- C8: in the UTF-8 byte encoding of any string, every ASCII byte (value
below 128) sits at a character boundary, and the position one past it is a
character boundary too: the byte at index `i` is the whole encoding of a
single character whose preceding characters occupy exactly `i` bytes.
Hence the byte index returned by `rfind('-')` (and the cuts around a
stripped ASCII suffix like `".exe"`) always fall on character boundaries,
so the slicing performed by `split_file_name` cannot fail, for any input
including multi-byte content. -/
theorem claim_C8 (s : List Char) (i b : Nat)
    (hget : (utf8Encode s)[i]? = some b) (hascii : b < 128) :
    ∃ pre c suf, s = pre ++ c :: suf ∧ utf8Len pre = i ∧
      utf8Len (pre ++ [c]) = i + 1 ∧ utf8EncodeChar c = [b] := by
  induction s generalizing i with
  | nil => simp [utf8Encode] at hget
  | cons c0 rest ih =>
    rw [utf8Encode_cons] at hget
    by_cases hi : i < (utf8EncodeChar c0).length
    · rw [List.getElem?_append_left hi] at hget
      by_cases hc0 : c0.toNat < 128
      · have hi0 : i = 0 := by
          rw [utf8EncodeChar_ascii hc0] at hi
          simpa using hi
        subst hi0
        have hb : c0.toNat = b := by
          rw [utf8EncodeChar_ascii hc0] at hget
          simpa using hget
        refine ⟨[], c0, rest, rfl, rfl, ?_, ?_⟩
        · show utf8Len [c0] = 1
          rw [show ([c0] : List Char) = c0 :: [] from rfl, utf8Len_cons,
            charBytes_of_ascii hc0, utf8Len_nil]
        · rw [utf8EncodeChar_ascii hc0, hb]
      · have := utf8EncodeChar_ge hc0 b (List.getElem?_mem hget)
        omega
    · push_neg at hi
      rw [List.getElem?_append_right hi] at hget
      obtain ⟨pre, c, suf, hs, hl, hl1, henc⟩ := ih _ hget
      have hcb : (utf8EncodeChar c0).length = charBytes c0 := utf8EncodeChar_length c0
      refine ⟨c0 :: pre, c, suf, by rw [hs]; rfl, ?_, ?_, henc⟩
      · rw [utf8Len_cons, hl]
        omega
      · rw [List.cons_append, utf8Len_cons, hl1]
        omega

/-- Witness for C8: the string `"α-"`; its encoding is `[206, 177, 45]` and
the ASCII byte `45` (`'-'`) at byte index 2 is the boundary-aligned
encoding of the character `'-'` after the 2-byte character `'α'`. -/
theorem claim_C8_witness :
    ∃ pre c suf, (['α', '-'] : List Char) = pre ++ c :: suf ∧ utf8Len pre = 2 ∧
      utf8Len (pre ++ [c]) = 3 ∧ utf8EncodeChar c = [45] :=
  claim_C8 ['α', '-'] 2 45 (by decide) (by decide)

